import Mathlib

set_option autoImplicit false

namespace JTImport

/-!
Shallow embedding of the Journal Transporter import plugin serializer layer
(`serializers.py`).  Strings handled by the Python `str.split` are modelled as
lists of characters; Python truthiness is made explicit at each use site.
-/

/-! ## Python string splitting

Embedding of the Python `str.split(sep)` for a one-character separator, over
lists of characters.  Python keeps empty segments and the result is always a
nonempty list of segments. -/

def pySplit (sep : Char) : List Char → List (List Char)
  | [] => [[]]
  | c :: rest =>
    let r := pySplit sep rest
    if c = sep then [] :: r else (c :: r.headD []) :: r.tail

theorem pySplit_nil (sep : Char) : pySplit sep [] = [[]] := rfl

theorem pySplit_cons (sep c : Char) (l : List Char) :
    pySplit sep (c :: l) =
      if c = sep then [] :: pySplit sep l
      else (c :: (pySplit sep l).headD []) :: (pySplit sep l).tail := rfl

theorem pySplit_ne_nil (sep : Char) (l : List Char) : pySplit sep l ≠ [] := by
  cases l with
  | nil => simp [pySplit]
  | cons c rest =>
    rw [pySplit_cons]
    split <;> simp

theorem pySplit_length (sep : Char) (l : List Char) :
    (pySplit sep l).length = l.count sep + 1 := by
  induction l with
  | nil => simp [pySplit]
  | cons c rest ih =>
    rw [pySplit_cons]
    obtain ⟨s, ss, hr⟩ := List.exists_cons_of_ne_nil (pySplit_ne_nil sep rest)
    rw [hr] at ih
    simp only [List.length_cons] at ih
    by_cases hc : c = sep
    · subst hc
      rw [if_pos rfl, hr, List.count_cons_self]
      simp only [List.length_cons]
      omega
    · rw [if_neg hc, hr, List.count_cons_of_ne (fun h => hc h.symm)]
      simp only [List.headD_cons, List.tail_cons, List.length_cons]
      omega

theorem pySplit_no_sep (sep : Char) (l : List Char) (h : sep ∉ l) :
    pySplit sep l = [l] := by
  induction l with
  | nil => rfl
  | cons c rest ih =>
    have hc : c ≠ sep := fun hcs => h (hcs ▸ List.mem_cons_self c rest)
    have hrest : sep ∉ rest := fun hm => h (List.mem_cons_of_mem c hm)
    rw [pySplit_cons, if_neg hc, ih hrest]
    rfl

/-- The trailing segment of a Python split, i.e. the Python `value.split(sep)[-1]`
(the split result is never empty, so the default is irrelevant). -/
def lastSegment (sep : Char) (s : List Char) : List Char :=
  (pySplit sep s).getLastD []

theorem getLastD_of_ne_nil {α : Type} (l : List α) (a b : α) (h : l ≠ []) :
    l.getLastD a = l.getLastD b := by
  obtain ⟨y, hy⟩ := Option.isSome_iff_exists.mp (List.getLast?_isSome.mpr h)
  rw [List.getLastD_eq_getLast?, List.getLastD_eq_getLast?, hy]
  rfl

theorem lastSegment_sep_cons (sep : Char) (ys : List Char) :
    lastSegment sep (sep :: ys) = lastSegment sep ys := by
  unfold lastSegment
  rw [pySplit_cons, if_pos rfl, List.getLastD_cons]

theorem lastSegment_append_sep (sep : Char) (xs ys : List Char) :
    lastSegment sep (xs ++ sep :: ys) = lastSegment sep ys := by
  induction xs with
  | nil => simpa using lastSegment_sep_cons sep ys
  | cons c xs ih =>
    obtain ⟨s, ss, hr⟩ := List.exists_cons_of_ne_nil (pySplit_ne_nil sep (xs ++ sep :: ys))
    have hss : ss ≠ [] := by
      have hlen : (pySplit sep (xs ++ sep :: ys)).length = (xs ++ sep :: ys).count sep + 1 :=
        pySplit_length sep (xs ++ sep :: ys)
      have hcnt : 0 < (xs ++ sep :: ys).count sep := by
        have : sep ∈ xs ++ sep :: ys := by simp
        exact List.count_pos_iff.mpr this
      rw [hr] at hlen
      simp only [List.length_cons] at hlen
      intro hssnil
      rw [hssnil] at hlen
      simp only [List.length_nil] at hlen
      omega
    have ih2 : (s :: ss).getLastD [] = lastSegment sep ys := by
      unfold lastSegment at ih
      rw [hr] at ih
      exact ih
    unfold lastSegment
    rw [List.cons_append, pySplit_cons, hr]
    by_cases hc : c = sep
    · rw [if_pos hc, List.getLastD_cons]
      rw [List.getLastD_cons] at ih2 ⊢
      exact ih2
    · rw [if_neg hc]
      simp only [List.headD_cons, List.tail_cons]
      rw [List.getLastD_cons, getLastD_of_ne_nil ss (c :: s) s hss]
      rw [List.getLastD_cons] at ih2
      exact ih2

/-- Elementary description of the trailing segment: it contains no separator,
and it is either the whole string or is preceded in it by a separator. -/
theorem lastSegment_spec (sep : Char) (s : List Char) :
    sep ∉ lastSegment sep s ∧
      (lastSegment sep s = s ∨ ∃ pre, s = pre ++ sep :: lastSegment sep s) := by
  induction s with
  | nil =>
    constructor
    · simp [lastSegment, pySplit]
    · left; rfl
  | cons c rest ih =>
    obtain ⟨ihmem, ihdec⟩ := ih
    by_cases hc : c = sep
    · subst hc
      rw [lastSegment_sep_cons]
      refine ⟨ihmem, Or.inr ?_⟩
      rcases ihdec with h | ⟨pre, hpre⟩
      · exact ⟨[], by simp [h]⟩
      · exact ⟨c :: pre, by rw [List.cons_append, ← hpre]⟩
    · obtain ⟨s0, ss, hr⟩ := List.exists_cons_of_ne_nil (pySplit_ne_nil sep rest)
      by_cases hss : ss = []
      · subst hss
        have hcnt : rest.count sep + 1 = 1 := by
          have := pySplit_length sep rest
          rw [hr] at this
          simpa using this.symm
        have hnomem : sep ∉ rest := by
          intro hm
          have := List.count_pos_iff.mpr hm
          omega
        have hs0 : s0 = rest := by
          have := pySplit_no_sep sep rest hnomem
          rw [hr] at this
          exact (List.cons_eq_cons.mp this).1
        have hlast : lastSegment sep (c :: rest) = c :: rest := by
          unfold lastSegment
          rw [pySplit_cons, if_neg hc, hr, hs0]
          rfl
        rw [hlast]
        refine ⟨?_, Or.inl rfl⟩
        intro hm
        rcases List.mem_cons.mp hm with h | h
        · exact hc h.symm
        · exact hnomem h
      · have hlast : lastSegment sep (c :: rest) = lastSegment sep rest := by
          unfold lastSegment
          rw [pySplit_cons, if_neg hc, hr]
          simp only [List.headD_cons, List.tail_cons, List.getLastD_cons]
          rw [getLastD_of_ne_nil ss (c :: s0) s0 hss]
        rw [hlast]
        refine ⟨ihmem, Or.inr ?_⟩
        rcases ihdec with h | ⟨pre, hpre⟩
        · exfalso
          have hcnt : 0 < rest.count sep := by
            have hlen := pySplit_length sep rest
            rw [hr] at hlen
            simp only [List.length_cons] at hlen
            have : ss.length ≥ 1 := List.length_pos.mpr hss
            omega
          have : sep ∈ rest := List.count_pos_iff.mp hcnt
          rw [← h] at this
          exact ihmem this
        · exact ⟨c :: pre, by rw [List.cons_append, ← hpre]⟩

/-! ## Decimal rendering of a primary key

Python renders the primary key with `"{0}:{1}".format(...)`, producing the
usual decimal digit string.  `natDigitsAux` is a fuel-driven embedding of that
rendering; `charsToNat` decodes a digit string back to the number. -/

def natDigitsAux : Nat → Nat → List Char
  | 0, _ => []
  | fuel + 1, n =>
    if n = 0 then [] else natDigitsAux fuel (n / 10) ++ [Nat.digitChar (n % 10)]

def natDigits (n : Nat) : List Char :=
  if n = 0 then ['0'] else natDigitsAux n n

def charVal (c : Char) : Nat := c.toNat - 48

def charsToNat (s : List Char) : Nat :=
  s.foldl (fun acc c => 10 * acc + charVal c) 0

theorem charVal_digitChar : ∀ m : Nat, m < 10 → charVal (Nat.digitChar m) = m := by decide

theorem digitChar_ne_colon : ∀ m : Nat, m < 10 → Nat.digitChar m ≠ ':' := by decide

theorem natDigitsAux_foldl :
    ∀ fuel n a, n ≤ fuel →
      List.foldl (fun acc c => 10 * acc + charVal c) a (natDigitsAux fuel n)
        = a * 10 ^ (natDigitsAux fuel n).length + n := by
  intro fuel
  induction fuel with
  | zero =>
    intro n a hn
    interval_cases n
    simp [natDigitsAux]
  | succ fuel ih =>
    intro n a hn
    by_cases h0 : n = 0
    · subst h0
      simp [natDigitsAux]
    · have hrec : n / 10 ≤ fuel := by
        have := Nat.div_lt_self (Nat.pos_of_ne_zero h0) (by norm_num : 1 < 10)
        omega
      have hmod : n % 10 < 10 := Nat.mod_lt n (by norm_num)
      simp only [natDigitsAux, if_neg h0, List.foldl_append, List.length_append,
        List.foldl_cons, List.foldl_nil, List.length_cons, List.length_nil]
      rw [ih (n / 10) a hrec, charVal_digitChar (n % 10) hmod]
      rw [Nat.mul_add, ← Nat.mul_assoc]
      have : 10 * (n / 10) + n % 10 = n := Nat.div_add_mod n 10
      ring_nf
      omega

theorem charsToNat_natDigits (n : Nat) : charsToNat (natDigits n) = n := by
  unfold charsToNat natDigits
  by_cases h0 : n = 0
  · subst h0; decide
  · rw [if_neg h0, natDigitsAux_foldl n n 0 (Nat.le_refl n)]
    simp

theorem natDigitsAux_no_colon :
    ∀ fuel n c, c ∈ natDigitsAux fuel n → c ≠ ':' := by
  intro fuel
  induction fuel with
  | zero => intro n c hc; simp [natDigitsAux] at hc
  | succ fuel ih =>
    intro n c hc
    by_cases h0 : n = 0
    · subst h0; simp [natDigitsAux] at hc
    · simp only [natDigitsAux, if_neg h0, List.mem_append, List.mem_singleton] at hc
      rcases hc with hc | hc
      · exact ih (n / 10) c hc
      · subst hc
        exact digitChar_ne_colon (n % 10) (Nat.mod_lt n (by norm_num))

theorem natDigits_no_colon (n : Nat) : ':' ∉ natDigits n := by
  unfold natDigits
  by_cases h0 : n = 0
  · subst h0; decide
  · rw [if_neg h0]
    intro hm
    exact natDigitsAux_no_colon n n ':' hm rfl

/-! ## Record keys

`TransporterSerializer.get_source_record_key` builds the per-record key
`"<ClassName>:<pk>"` (only when the record has a primary key, i.e. `obj.pk`
is truthy); `TransporterSerializer.parse_target_record_key` is
`value.split(":")[-1] if value else None`. -/

def get_source_record_key (className : List Char) (pk : Nat) : Option (List Char) :=
  if pk = 0 then none else some (className ++ ':' :: natDigits pk)

def parse_target_record_key : Option (List Char) → Option (List Char)
  | none => none
  | some s => if s = [] then none else some (lastSegment ':' s)

theorem parse_target_record_key_some (s : List Char) :
    parse_target_record_key (some s) = if s = [] then none else some (lastSegment ':' s) := rfl

theorem lastSegment_no_sep (sep : Char) (l : List Char) (h : sep ∉ l) :
    lastSegment sep l = l := by
  unfold lastSegment
  rw [pySplit_no_sep sep l h]
  rfl

/-- Claim C4: for every persisted entity (primary key `pk ≠ 0`), the source
record key built from the class name and `pk`, when supplied later as a
`target_record_key` and parsed by the foreign-key resolver, yields back
exactly the decimal representation of `pk`, which decodes to the same local
identifier `pk`. -/
theorem parse_source_record_key_roundtrip (className : List Char) (pk : Nat) (h : 0 < pk) :
    parse_target_record_key (get_source_record_key className pk) = some (natDigits pk)
      ∧ charsToNat (natDigits pk) = pk := by
  refine ⟨?_, charsToNat_natDigits pk⟩
  unfold get_source_record_key
  rw [if_neg (by omega)]
  have hne : className ++ ':' :: natDigits pk ≠ [] := by simp
  rw [parse_target_record_key_some, if_neg hne, lastSegment_append_sep,
    lastSegment_no_sep ':' (natDigits pk) (natDigits_no_colon pk)]

/-- Claim C4 witness: the key built for a `Journal` with pk 17 parses back to
the digit string of 17. -/
theorem parse_source_record_key_roundtrip_witness :
    0 < 17 ∧
      (parse_target_record_key
          (get_source_record_key ['J', 'o', 'u', 'r', 'n', 'a', 'l'] 17) = some (natDigits 17)
        ∧ charsToNat (natDigits 17) = 17) :=
  ⟨by decide, parse_source_record_key_roundtrip ['J', 'o', 'u', 'r', 'n', 'a', 'l'] 17 (by decide)⟩

/-- Claim C9 counterexample: the colon-free key `"abc"` is malformed with
respect to the documented format, yet the resolver returns `"abc"` itself,
not `None`/absence. -/
theorem parse_malformed_key_not_none :
    parse_target_record_key (some ['a', 'b', 'c']) = some ['a', 'b', 'c']
      ∧ some ['a', 'b', 'c'] ≠ (none : Option (List Char))
      ∧ ':' ∉ ['a', 'b', 'c'] := by
  refine ⟨?_, by simp, by decide⟩
  rw [parse_target_record_key_some, if_neg (by simp),
    lastSegment_no_sep ':' ['a', 'b', 'c'] (by decide)]

/-- Claim C9 (amended): the resolver never raises; an absent or empty key
yields `None`, and every nonempty key string yields its trailing
colon-delimited segment — which is the whole string when it contains no colon
(so a malformed colon-free key yields itself rather than `None`). -/
theorem parse_target_record_key_spec :
    parse_target_record_key none = none
      ∧ parse_target_record_key (some []) = none
      ∧ ∀ s : List Char, s ≠ [] →
          (parse_target_record_key (some s) = some (lastSegment ':' s)
            ∧ ':' ∉ lastSegment ':' s
            ∧ (lastSegment ':' s = s ∨ ∃ pre, s = pre ++ ':' :: lastSegment ':' s)) := by
  refine ⟨rfl, rfl, fun s hs => ⟨?_, (lastSegment_spec ':' s).1, (lastSegment_spec ':' s).2⟩⟩
  rw [parse_target_record_key_some, if_neg hs]

/-- Claim C9 witness: the resolver applied to the concrete key `"J:5"`. -/
theorem parse_target_record_key_spec_witness :
    ['J', ':', '5'] ≠ ([] : List Char)
      ∧ parse_target_record_key (some ['J', ':', '5']) = some (lastSegment ':' ['J', ':', '5']) :=
  ⟨by simp, (parse_target_record_key_spec.2.2 ['J', ':', '5'] (by simp)).1⟩

/-! ## Python values

A JSON-shaped value space with Python truthiness, used by the payload-level
functions (`apply_default_value`, `extract_foreign_keys`). -/

inductive PyVal where
  | vnone : PyVal
  | vbool : Bool → PyVal
  | vint : Int → PyVal
  | vstr : String → PyVal
  | vlist : List PyVal → PyVal
  | vdict : List (String × PyVal) → PyVal

def pyTruthy : PyVal → Bool
  | .vnone => false
  | .vbool b => b
  | .vint n => n != 0
  | .vstr s => !(s == "")
  | .vlist l => !l.isEmpty
  | .vdict d => !d.isEmpty

/-- the Python `x is False`: identity with the `False` singleton. -/
def PyVal.isFalseLit : PyVal → Bool
  | .vbool false => true
  | _ => false

theorem isFalseLit_eq_true (v : PyVal) :
    PyVal.isFalseLit v = true ↔ v = PyVal.vbool false := by
  cases v with
  | vbool b => cases b <;> simp [PyVal.isFalseLit]
  | _ => simp [PyVal.isFalseLit]

/-- Embedding of `TransporterSerializer.apply_default_value`: the source reads
`if not (data.get(field) or data.get(field) is False): data[field] = default`,
with `data.get(field)` returning Python `None` when the key is absent. -/
def apply_default_value (cur : Option PyVal) (default : PyVal) : PyVal :=
  let got := cur.getD .vnone
  if !pyTruthy got && !got.isFalseLit then default else got

/-- Claim C8 counterexample: an incoming explicit integer `0` is neither
missing, null, nor an empty string, yet `apply_default_value` replaces it with
the declared default (here the Article default title). -/
theorem apply_default_overrides_zero :
    apply_default_value (some (PyVal.vint 0)) (PyVal.vstr "Untitled Article")
        = PyVal.vstr "Untitled Article"
      ∧ PyVal.vstr "Untitled Article" ≠ PyVal.vint 0 :=
  ⟨rfl, fun h => PyVal.noConfusion h⟩

/-- Claim C8 (amended): the default is applied exactly when the incoming value
is missing or Python-falsy other than the boolean `false` (so also for numeric
zero, an empty list or an empty dict, not only for null and the empty string);
an explicit boolean `false` is preserved, and every truthy incoming value is
left unchanged. -/
theorem apply_default_value_spec (cur : Option PyVal) (default : PyVal) :
    ((cur = none ∨ ∃ v, cur = some v ∧ pyTruthy v = false ∧ v ≠ PyVal.vbool false) →
        apply_default_value cur default = default)
      ∧ (cur = some (PyVal.vbool false) →
        apply_default_value cur default = PyVal.vbool false)
      ∧ (∀ v, cur = some v → pyTruthy v = true → apply_default_value cur default = v) := by
  refine ⟨?_, ?_, ?_⟩
  · rintro (rfl | ⟨v, rfl, htr, hne⟩)
    · simp [apply_default_value, pyTruthy, PyVal.isFalseLit]
    · have hf : PyVal.isFalseLit v = false := by
        cases hvl : PyVal.isFalseLit v
        · rfl
        · exact absurd ((isFalseLit_eq_true v).mp hvl) hne
      simp [apply_default_value, htr, hf]
  · rintro rfl
    simp [apply_default_value, pyTruthy, PyVal.isFalseLit]
  · rintro v rfl htr
    simp [apply_default_value, htr]

/-- Claim C8 witness: a missing incoming value receives the declared default. -/
theorem apply_default_value_spec_witness :
    apply_default_value none (PyVal.vstr "None") = PyVal.vstr "None" :=
  (apply_default_value_spec none (PyVal.vstr "None")).1 (Or.inl rfl)

/-! ## Foreign-key extraction

Embedding of `TransporterSerializer.extract_foreign_keys`,
`__extract_foreign_key` and `__process_foreign_key`.  A payload is an
association list with Python-dict access; `Except Unit` models an unhandled
Python exception (`UnboundLocalError` when `parsed_result` is used unbound,
`AttributeError` when `.split` is called on a truthy non-string). -/

abbrev Payload := List (String × PyVal)

def dictGet (d : Payload) (k : String) : Option PyVal :=
  (d.find? (fun p => p.1 == k)).map Prod.snd

def dictErase (d : Payload) (k : String) : Payload :=
  d.eraseP (fun p => p.1 == k)

def dictSet (d : Payload) (k : String) (v : PyVal) : Payload :=
  (k, v) :: d.eraseP (fun p => p.1 == k)

/-- `parse_target_record_key` applied to an arbitrary payload value: a falsy
value yields `None`; a truthy string is split; a truthy non-string raises
(`AttributeError`, no `split` attribute). -/
def parsePyRecordKey (v : PyVal) : Except Unit PyVal :=
  if pyTruthy v then
    match v with
    | .vstr s => .ok (.vstr (String.mk (lastSegment ':' s.toList)))
    | _ => .error ()
  else .ok .vnone

/-- `__process_foreign_key`: a dict has its `target_record_key` parsed; any
other value falls through and Python implicitly returns `None`. -/
def processForeignKey (v : PyVal) : Except Unit PyVal :=
  match v with
  | .vdict entries => parsePyRecordKey ((dictGet entries "target_record_key").getD .vnone)
  | _ => .ok .vnone

/-- the Python `list(map(f, xs))` when `f` can raise. -/
def mapEx (f : PyVal → Except Unit PyVal) : List PyVal → Except Unit (List PyVal)
  | [] => .ok []
  | x :: xs => do
    let y ← f x
    let ys ← mapEx f xs
    .ok (y :: ys)

/-- The body of `__extract_foreign_key` once a value was popped: a truthy
list is mapped, a truthy dict is parsed, and any other truthy value reaches
`data[foreign_key] = parsed_result` with `parsed_result` unbound, raising;
a falsy value is dropped without assignment. -/
def extractFoundValue (d1 : Payload) (fk : String) (v : PyVal) : Except Unit Payload :=
  if pyTruthy v then
    match v with
    | .vlist elems => do
      let parsed ← mapEx processForeignKey elems
      .ok (dictSet d1 fk (.vlist parsed))
    | .vdict entries => do
      let parsed ← processForeignKey (.vdict entries)
      .ok (dictSet d1 fk parsed)
    | _ => .error ()
  else .ok d1

/-- `__extract_foreign_key`: `found = data.pop(lookup_key, None)` followed by
the conditional assignment of the parsed result. -/
def extractForeignKey (d : Payload) (lookupKey fk : String) : Except Unit Payload :=
  match dictGet d lookupKey with
  | none => .ok (dictErase d lookupKey)
  | some v => extractFoundValue (dictErase d lookupKey) fk v

/-- `extract_foreign_keys`: iterates the serializer `Meta.foreign_keys`
spec (lookup-key, foreign-key-name pairs) over the payload. -/
def extract_foreign_keys (spec : List (String × String)) (d : Payload) : Except Unit Payload :=
  match spec with
  | [] => .ok d
  | (l, f) :: rest => do
    let d1 ← extractForeignKey d l f
    extract_foreign_keys rest d1

def pyOk {α : Type} : Except Unit α → Bool
  | .ok _ => true
  | .error _ => false

def PyVal.isStr : PyVal → Bool
  | .vstr _ => true
  | _ => false

/-- A reference dict is harmless exactly when its `target_record_key` is
absent, falsy, or a string. -/
def targetOk (entries : List (String × PyVal)) : Bool :=
  let v := (dictGet entries "target_record_key").getD .vnone
  !pyTruthy v || v.isStr

def elemOk : PyVal → Bool
  | .vdict en => targetOk en
  | _ => true

/-- A declared foreign-key field payload value does not make extraction
raise exactly when it is absent, falsy, a dict with a harmless
`target_record_key`, or a list whose dict elements are all harmless. -/
def fkValueOk : Option PyVal → Bool
  | none => true
  | some v =>
    !pyTruthy v ||
      (match v with
       | .vlist elems => elems.all elemOk
       | .vdict en => targetOk en
       | _ => false)

theorem pyOk_ok {α : Type} (a : α) : pyOk (Except.ok a : Except Unit α) = true := rfl

theorem pyOk_error {α : Type} (e : Unit) : pyOk (Except.error e : Except Unit α) = false := rfl

theorem exBind_ok {α β : Type} (a : α) (g : α → Except Unit β) :
    (Except.ok a : Except Unit α) >>= g = g a := rfl

theorem exBind_error {α β : Type} (e : Unit) (g : α → Except Unit β) :
    (Except.error e : Except Unit α) >>= g = Except.error e := rfl

theorem parsePyRecordKey_ok (v : PyVal) :
    pyOk (parsePyRecordKey v) = (!pyTruthy v || v.isStr) := by
  unfold parsePyRecordKey
  by_cases htr : pyTruthy v
  · rw [if_pos htr, htr, Bool.not_true, Bool.false_or]
    cases v <;> rfl
  · rw [if_neg htr, Bool.not_eq_true] at *
    rw [htr, Bool.not_false, Bool.true_or]
    rfl

theorem processForeignKey_ok (v : PyVal) :
    pyOk (processForeignKey v) = elemOk v := by
  cases v with
  | vdict entries =>
    show pyOk (parsePyRecordKey ((dictGet entries "target_record_key").getD .vnone))
        = targetOk entries
    rw [parsePyRecordKey_ok]
    rfl
  | vnone => rfl
  | vbool b => rfl
  | vint n => rfl
  | vstr s => rfl
  | vlist l => rfl

theorem mapEx_ok (elems : List PyVal) :
    pyOk (mapEx processForeignKey elems) = elems.all elemOk := by
  induction elems with
  | nil => rfl
  | cons x xs ih =>
    have hx := processForeignKey_ok x
    simp only [mapEx, List.all_cons]
    cases hpx : processForeignKey x with
    | error e =>
      rw [hpx, pyOk_error] at hx
      rw [exBind_error, pyOk_error, ← hx, Bool.false_and]
    | ok y =>
      rw [hpx, pyOk_ok] at hx
      rw [exBind_ok, ← hx, Bool.true_and, ← ih]
      cases hm : mapEx processForeignKey xs with
      | error e => rw [exBind_error]
      | ok ys => rw [exBind_ok, pyOk_ok, pyOk_ok]

theorem extractFoundValue_ok (d1 : Payload) (fk : String) (v : PyVal) :
    pyOk (extractFoundValue d1 fk v) = fkValueOk (some v) := by
  by_cases htr : pyTruthy v
  · cases v with
    | vlist elems =>
      have hL : extractFoundValue d1 fk (PyVal.vlist elems)
          = mapEx processForeignKey elems
              >>= (fun parsed => Except.ok (dictSet d1 fk (PyVal.vlist parsed))) := by
        unfold extractFoundValue
        rw [if_pos htr]
      have hR : fkValueOk (some (PyVal.vlist elems))
          = (!pyTruthy (PyVal.vlist elems) || elems.all elemOk) := rfl
      rw [hL, hR, htr, Bool.not_true, Bool.false_or]
      have hm2 := mapEx_ok elems
      cases hm : mapEx processForeignKey elems with
      | error e =>
        rw [hm, pyOk_error] at hm2
        rw [exBind_error, pyOk_error]
        exact hm2
      | ok parsed =>
        rw [hm, pyOk_ok] at hm2
        rw [exBind_ok, pyOk_ok]
        exact hm2
    | vdict entries =>
      have hL : extractFoundValue d1 fk (PyVal.vdict entries)
          = processForeignKey (PyVal.vdict entries)
              >>= (fun parsed => Except.ok (dictSet d1 fk parsed)) := by
        unfold extractFoundValue
        rw [if_pos htr]
      have hR : fkValueOk (some (PyVal.vdict entries))
          = (!pyTruthy (PyVal.vdict entries) || targetOk entries) := rfl
      rw [hL, hR, htr, Bool.not_true, Bool.false_or]
      have hp2 := processForeignKey_ok (PyVal.vdict entries)
      cases hp : processForeignKey (PyVal.vdict entries) with
      | error e =>
        rw [hp, pyOk_error] at hp2
        rw [exBind_error, pyOk_error]
        exact hp2
      | ok parsed =>
        rw [hp, pyOk_ok] at hp2
        rw [exBind_ok, pyOk_ok]
        exact hp2
    | vnone => exact absurd htr (by decide)
    | vbool b =>
      have hL : extractFoundValue d1 fk (PyVal.vbool b) = Except.error () := by
        unfold extractFoundValue
        rw [if_pos htr]
      have hR : fkValueOk (some (PyVal.vbool b))
          = (!pyTruthy (PyVal.vbool b) || false) := rfl
      rw [hL, hR, htr, pyOk_error, Bool.not_true, Bool.false_or]
    | vint n =>
      have hL : extractFoundValue d1 fk (PyVal.vint n) = Except.error () := by
        unfold extractFoundValue
        rw [if_pos htr]
      have hR : fkValueOk (some (PyVal.vint n))
          = (!pyTruthy (PyVal.vint n) || false) := rfl
      rw [hL, hR, htr, pyOk_error, Bool.not_true, Bool.false_or]
    | vstr s =>
      have hL : extractFoundValue d1 fk (PyVal.vstr s) = Except.error () := by
        unfold extractFoundValue
        rw [if_pos htr]
      have hR : fkValueOk (some (PyVal.vstr s))
          = (!pyTruthy (PyVal.vstr s) || false) := rfl
      rw [hL, hR, htr, pyOk_error, Bool.not_true, Bool.false_or]
  · have hL : extractFoundValue d1 fk v = .ok d1 := by
      unfold extractFoundValue
      rw [if_neg htr]
    rw [hL, pyOk_ok]
    simp only [fkValueOk]
    rw [Bool.not_eq_true] at htr
    rw [htr, Bool.not_false, Bool.true_or]

theorem extractForeignKey_ok (d : Payload) (l f : String) :
    pyOk (extractForeignKey d l f) = fkValueOk (dictGet d l) := by
  unfold extractForeignKey
  cases hg : dictGet d l with
  | none => rfl
  | some v => exact extractFoundValue_ok (dictErase d l) f v

theorem find?_eraseP_of_not {α : Type} (p q : α → Bool) (l : List α)
    (h : ∀ x, q x = true → p x = false) :
    (l.eraseP q).find? p = l.find? p := by
  induction l with
  | nil => rfl
  | cons x xs ih =>
    by_cases hq : q x
    · rw [List.eraseP_cons_of_pos hq, List.find?_cons_of_neg]
      intro hp
      rw [h x hq] at hp
      exact Bool.noConfusion hp
    · rw [List.eraseP_cons_of_neg hq]
      by_cases hp : p x
      · rw [List.find?_cons_of_pos _ hp, List.find?_cons_of_pos _ hp]
      · rw [List.find?_cons_of_neg _ hp, List.find?_cons_of_neg _ hp]
        exact ih

theorem dictGet_erase_of_ne (d : Payload) (l k : String) (h : k ≠ l) :
    dictGet (dictErase d l) k = dictGet d k := by
  unfold dictGet dictErase
  rw [find?_eraseP_of_not]
  intro x hq
  have hx : x.1 = l := by simpa using hq
  rw [hx]
  exact beq_eq_false_iff_ne.mpr (Ne.symm h)

theorem dictGet_set_of_ne (d : Payload) (f k : String) (v : PyVal) (h : k ≠ f) :
    dictGet (dictSet d f v) k = dictGet d k := by
  unfold dictGet dictSet
  rw [show List.find? (fun p => p.1 == k) ((f, v) :: List.eraseP (fun p => p.1 == f) d)
      = List.find? (fun p => p.1 == k) (List.eraseP (fun p => p.1 == f) d) from
    List.find?_cons_of_neg _ (fun hp => h ((by simpa using hp : f = k)).symm)]
  rw [find?_eraseP_of_not (fun p => p.1 == k) (fun p => p.1 == f) d (fun x hq => by
    have hx : x.1 = f := by simpa using hq
    show (x.1 == k) = false
    rw [hx]
    exact beq_eq_false_iff_ne.mpr (Ne.symm h))]

/-- A successful `__extract_foreign_key` either leaves the popped payload as
is or additionally writes the parsed result under the foreign-key name. -/
theorem extractFoundValue_result (d1 : Payload) (fk : String) (v : PyVal) (d2 : Payload)
    (h : extractFoundValue d1 fk v = .ok d2) :
    d2 = d1 ∨ ∃ w, d2 = dictSet d1 fk w := by
  by_cases htr : pyTruthy v
  · cases v with
    | vlist elems =>
      have hL : extractFoundValue d1 fk (PyVal.vlist elems)
          = mapEx processForeignKey elems
              >>= (fun parsed => Except.ok (dictSet d1 fk (PyVal.vlist parsed))) := by
        unfold extractFoundValue
        rw [if_pos htr]
      rw [hL] at h
      cases hm : mapEx processForeignKey elems with
      | error e => rw [hm, exBind_error] at h; exact Except.noConfusion h
      | ok parsed =>
        rw [hm, exBind_ok] at h
        injection h with h2
        exact Or.inr ⟨PyVal.vlist parsed, h2.symm⟩
    | vdict entries =>
      have hL : extractFoundValue d1 fk (PyVal.vdict entries)
          = processForeignKey (PyVal.vdict entries)
              >>= (fun parsed => Except.ok (dictSet d1 fk parsed)) := by
        unfold extractFoundValue
        rw [if_pos htr]
      rw [hL] at h
      cases hp : processForeignKey (PyVal.vdict entries) with
      | error e => rw [hp, exBind_error] at h; exact Except.noConfusion h
      | ok parsed =>
        rw [hp, exBind_ok] at h
        injection h with h2
        exact Or.inr ⟨parsed, h2.symm⟩
    | vnone => exact absurd htr (by decide)
    | vbool b =>
      have hL : extractFoundValue d1 fk (PyVal.vbool b) = Except.error () := by
        unfold extractFoundValue
        rw [if_pos htr]
      rw [hL] at h
      exact Except.noConfusion h
    | vint n =>
      have hL : extractFoundValue d1 fk (PyVal.vint n) = Except.error () := by
        unfold extractFoundValue
        rw [if_pos htr]
      rw [hL] at h
      exact Except.noConfusion h
    | vstr s =>
      have hL : extractFoundValue d1 fk (PyVal.vstr s) = Except.error () := by
        unfold extractFoundValue
        rw [if_pos htr]
      rw [hL] at h
      exact Except.noConfusion h
  · have hL : extractFoundValue d1 fk v = .ok d1 := by
      unfold extractFoundValue
      rw [if_neg htr]
    rw [hL] at h
    injection h with h2
    exact Or.inl h2.symm

/-- A successful extraction step does not change the payload entries other
than the popped lookup key and the written foreign-key name. -/
theorem extractForeignKey_preserves (d : Payload) (l f k : String) (d2 : Payload)
    (hkl : k ≠ l) (hkf : k ≠ f)
    (h : extractForeignKey d l f = .ok d2) :
    dictGet d2 k = dictGet d k := by
  unfold extractForeignKey at h
  cases hg : dictGet d l with
  | none =>
    rw [hg] at h
    injection h with h2
    rw [← h2]
    exact dictGet_erase_of_ne d l k hkl
  | some v =>
    rw [hg] at h
    rcases extractFoundValue_result (dictErase d l) f v d2 h with h2 | ⟨w, h2⟩
    · rw [h2]
      exact dictGet_erase_of_ne d l k hkl
    · rw [h2, dictGet_set_of_ne _ f k w hkf]
      exact dictGet_erase_of_ne d l k hkl

/-- Claim C10 counterexample: a payload whose declared foreign-key field
holds a list (of one reference dict whose `target_record_key` is the boolean
`True`) still makes extraction raise, so "value is a list" does not guarantee
completion as the claim "exactly when" requires. -/
theorem extract_foreign_keys_list_raises :
    dictGet [("creator", PyVal.vlist [PyVal.vdict [("target_record_key", PyVal.vbool true)]])]
        "creator"
        = some (PyVal.vlist [PyVal.vdict [("target_record_key", PyVal.vbool true)]])
      ∧ pyOk (extract_foreign_keys [("creator", "owner_id")]
          [("creator", PyVal.vlist [PyVal.vdict [("target_record_key", PyVal.vbool true)]])])
        = false := by
  constructor
  · rfl
  · rfl

/-- Claim C10 (amended): provided the declared lookup keys are distinct and
no lookup key equals the foreign-key name of a different pair — true of every
serializer Meta in the source, including the log-entry serializer, whose
single pair maps `user` onto itself — extraction completes without raising
exactly when every declared foreign-key field value is absent, falsy, a
reference dict whose `target_record_key` is absent, falsy or a string, or a
list all of whose dict elements have such a `target_record_key`; any other
truthy shape (for example a bare record-key string, or a reference whose key
is a truthy non-string) raises an unhandled error. -/
theorem extract_foreign_keys_ok_iff (spec : List (String × String)) (d : Payload)
    (hnodup : (spec.map Prod.fst).Nodup)
    (hdisj : ∀ p ∈ spec, ∀ q ∈ spec, p ≠ q → p.1 ≠ q.2) :
    pyOk (extract_foreign_keys spec d) = true
      ↔ ∀ p ∈ spec, fkValueOk (dictGet d p.1) = true := by
  induction spec generalizing d with
  | nil => simp [extract_foreign_keys, pyOk]
  | cons hd rest ih =>
    obtain ⟨l, f⟩ := hd
    have hstep : extract_foreign_keys ((l, f) :: rest) d
        = (extractForeignKey d l f >>= fun d1 => extract_foreign_keys rest d1) := rfl
    rw [hstep]
    have hok := extractForeignKey_ok d l f
    cases he : extractForeignKey d l f with
    | error e =>
      rw [he, pyOk_error] at hok
      rw [exBind_error]
      constructor
      · intro hfalse
        rw [pyOk_error] at hfalse
        exact Bool.noConfusion hfalse
      · intro hall
        exact Bool.noConfusion (hok.trans (hall (l, f) (List.mem_cons_self _ _)))
    | ok d1 =>
      rw [he, pyOk_ok] at hok
      rw [exBind_ok]
      have hnodup2 : (rest.map Prod.fst).Nodup := (List.nodup_cons.mp hnodup).2
      have hdisj2 : ∀ p ∈ rest, ∀ q ∈ rest, p ≠ q → p.1 ≠ q.2 := fun p hp q hq =>
        hdisj p (List.mem_cons_of_mem _ hp) q (List.mem_cons_of_mem _ hq)
      have hpres : ∀ p ∈ rest, dictGet d1 p.1 = dictGet d p.1 := by
        intro p hp
        have hkl : p.1 ≠ l := by
          intro hEq
          have hm : p.1 ∈ rest.map Prod.fst := List.mem_map_of_mem Prod.fst hp
          rw [hEq] at hm
          exact (List.nodup_cons.mp hnodup).1 hm
        have hkf : p.1 ≠ f := by
          refine hdisj p (List.mem_cons_of_mem _ hp) (l, f) (List.mem_cons_self _ _) ?_
          intro hpe
          exact hkl (by rw [hpe])
        exact extractForeignKey_preserves d l f p.1 d1 hkl hkf he
      rw [ih d1 hnodup2 hdisj2]
      constructor
      · intro hall p hp
        rcases List.mem_cons.mp hp with rfl | hp2
        · exact hok.symm
        · rw [← hpres p hp2]
          exact hall p hp2
      · intro hall p hp
        rw [hpres p hp]
        exact hall p (List.mem_cons_of_mem _ hp)

/-- The review-assignment serializer `Meta.foreign_keys` table. -/
def assignmentForeignKeys : List (String × String) :=
  [("reviewer", "reviewer_id"), ("editor", "editor_id"),
   ("review_files", "round_review_file_ids"), ("reviewer_file", "reviewer_file_id"),
   ("supp_files", "supplementary_file_ids"), ("review_form", "review_form_id")]

/-- The log-entry serializer `Meta.foreign_keys` table: its lookup key maps
onto the same name. -/
def logEntryForeignKeys : List (String × String) :=
  [("user", "user")]

/-- Claim C10 witness: extraction of well-formed reference payloads completes
both through the review-assignment foreign-key table and through the
log-entry table whose pair maps `user` onto itself. -/
theorem extract_foreign_keys_ok_iff_witness :
    pyOk (extract_foreign_keys assignmentForeignKeys
        [("reviewer", PyVal.vdict [("target_record_key", PyVal.vstr "Account:3")])]) = true
      ∧ pyOk (extract_foreign_keys logEntryForeignKeys
          [("user", PyVal.vdict [("target_record_key", PyVal.vstr "Account:7")])]) = true :=
  ⟨(extract_foreign_keys_ok_iff assignmentForeignKeys
      [("reviewer", PyVal.vdict [("target_record_key", PyVal.vstr "Account:3")])]
      (by decide) (by decide)).mpr (by decide),
   (extract_foreign_keys_ok_iff logEntryForeignKeys
      [("user", PyVal.vdict [("target_record_key", PyVal.vstr "Account:7")])]
      (by decide) (by decide)).mpr (by decide)⟩

/-! ## User import (`UserSerializer.create`)

The serializer looks an account up by the lowercased e-mail and returns it if
present; otherwise it falls through to the generic `create`.  The host
account store is external to this repository; modelled from the spec
(idempotence of user import under e-mail), it normalizes the e-mail on save,
so lookups by the lowercased e-mail find previously saved accounts. -/

structure Account where
  pk : Nat
  email : String
deriving DecidableEq

def lookupAccountByEmail (accounts : List Account) (email : String) : Option Account :=
  accounts.find? (fun a => a.email == email)

def freshPk (accounts : List Account) : Nat :=
  (accounts.map Account.pk).foldr max 0 + 1

/-- Modelled from the spec: the host application `Account` persistence
(outside this repository) saves the account created from the validated data;
the spec duplicate-suppression guarantee for users requires the stored
e-mail to be the normalized (lowercased) one that later lookups use. -/
def accountStoreCreate (accounts : List Account) (email : String) : Account × List Account :=
  let a : Account := { pk := freshPk accounts, email := email.toLower }
  (a, accounts ++ [a])

/-- `UserSerializer.create`: do not modify existing users; return existing
user (lookup by lowercased e-mail) if present, else create. -/
def userSerializerCreate (accounts : List Account) (email : String) : Account × List Account :=
  match lookupAccountByEmail accounts email.toLower with
  | some existing => (existing, accounts)
  | none => accountStoreCreate accounts email

theorem find?_append_of_none {α : Type} (p : α → Bool) (l1 l2 : List α)
    (h : l1.find? p = none) : (l1 ++ l2).find? p = l2.find? p := by
  induction l1 with
  | nil => rfl
  | cons x xs ih =>
    by_cases hp : p x
    · rw [List.find?_cons_of_pos _ hp] at h
      exact Option.noConfusion h
    · rw [List.find?_cons_of_neg _ hp] at h
      rw [List.cons_append, List.find?_cons_of_neg _ hp]
      exact ih h

/-- Claim C5: importing the same e-mail twice returns the account produced by
the first import, with the store unchanged — no duplicate is created and no
error is raised (the function is total). -/
theorem user_import_idempotent (accounts : List Account) (email : String) :
    userSerializerCreate (userSerializerCreate accounts email).2 email
      = userSerializerCreate accounts email := by
  unfold userSerializerCreate
  cases hl : lookupAccountByEmail accounts email.toLower with
  | some existing =>
    simp only [hl]
  | none =>
    simp only [hl]
    unfold accountStoreCreate
    have hfound : lookupAccountByEmail
        (accounts ++ [{ pk := freshPk accounts, email := email.toLower }]) email.toLower
        = some { pk := freshPk accounts, email := email.toLower } := by
      unfold lookupAccountByEmail at hl ⊢
      rw [find?_append_of_none _ accounts _ hl]
      exact List.find?_cons_of_pos _ (by simp)
    simp only [hfound]

/-! ## Review assignments (`JournalArticleRoundAssignmentSerializer`)

`before_validation` works on the raw payload keys (`date_due`,
`date_completed`, `date_assigned`, `comments`); `pre_process` works on the
mapped keys (`decision`, `date_complete`).  Datetimes are modelled as `Int`
codes (only order and truthiness matter); a present datetime is always
truthy. -/

structure AssignmentPayload where
  date_assigned : Option Int
  date_due : Option Int
  date_completed : Option Int
  comments : PyVal

/-- First statement of `before_validation`:
`if not data.get("date_due"): data["date_due"] = data.get("date_completed")
or data.get("date_assigned")`. -/
def deriveDueDate (d : AssignmentPayload) : AssignmentPayload :=
  { d with
    date_due :=
      match d.date_due with
      | some v => some v
      | none =>
        match d.date_completed with
        | some c => some c
        | none => d.date_assigned }

/-- `comment[0]["comments"]` for the first list element: subscripting a
non-dict element, or a dict without the key, raises. -/
def commentOfEntry (e : PyVal) (d : AssignmentPayload) : Except Unit AssignmentPayload :=
  match e with
  | .vdict entries =>
    match dictGet entries "comments" with
    | some v => .ok { d with comments := v }
    | none => .error ()
  | _ => .error ()

/-- Second statement of `before_validation`:
`data["comments"] = comment[0]["comments"] if isinstance(comment, list) and
len(comment) > 0 else None`. -/
def flattenComments (d : AssignmentPayload) : Except Unit AssignmentPayload :=
  match d.comments with
  | .vlist (e :: _) => commentOfEntry e d
  | _ => .ok { d with comments := .vnone }

theorem commentOfEntry_vdict (entries : List (String × PyVal)) (d : AssignmentPayload) :
    commentOfEntry (PyVal.vdict entries) d
      = (match dictGet entries "comments" with
         | some v => Except.ok { d with comments := v }
         | none => Except.error ()) := rfl

def assignmentBeforeValidation (d : AssignmentPayload) : Except Unit AssignmentPayload :=
  flattenComments (deriveDueDate d)

theorem flattenComments_dates (d d2 : AssignmentPayload)
    (h : flattenComments d = .ok d2) :
    d2.date_due = d.date_due ∧ d2.date_assigned = d.date_assigned
      ∧ d2.date_completed = d.date_completed := by
  cases hc : d.comments with
  | vlist l =>
    cases l with
    | nil =>
      have hred : flattenComments d = .ok { d with comments := .vnone } := by
        unfold flattenComments
        rw [hc]
      rw [hred] at h
      injection h with h2
      rw [← h2]
      exact ⟨rfl, rfl, rfl⟩
    | cons e rest =>
      cases e with
      | vdict entries =>
        have hred : flattenComments d = commentOfEntry (PyVal.vdict entries) d := by
          unfold flattenComments
          rw [hc]
        rw [hred, commentOfEntry_vdict] at h
        cases hg : dictGet entries "comments" with
        | some v =>
          rw [hg] at h
          have h3 : Except.ok { d with comments := v } = Except.ok d2 := h
          injection h3 with h2
          rw [← h2]
          exact ⟨rfl, rfl, rfl⟩
        | none =>
          rw [hg] at h
          exact Except.noConfusion h
      | vnone =>
        have hred : flattenComments d = .error () := by
          unfold flattenComments
          rw [hc]
          rfl
        rw [hred] at h
        exact Except.noConfusion h
      | vbool b =>
        have hred : flattenComments d = .error () := by
          unfold flattenComments
          rw [hc]
          rfl
        rw [hred] at h
        exact Except.noConfusion h
      | vint n =>
        have hred : flattenComments d = .error () := by
          unfold flattenComments
          rw [hc]
          rfl
        rw [hred] at h
        exact Except.noConfusion h
      | vstr s =>
        have hred : flattenComments d = .error () := by
          unfold flattenComments
          rw [hc]
          rfl
        rw [hred] at h
        exact Except.noConfusion h
      | vlist l2 =>
        have hred : flattenComments d = .error () := by
          unfold flattenComments
          rw [hc]
          rfl
        rw [hred] at h
        exact Except.noConfusion h
  | vnone =>
    have hred : flattenComments d = .ok { d with comments := .vnone } := by
      unfold flattenComments
      rw [hc]
    rw [hred] at h
    injection h with h2
    rw [← h2]
    exact ⟨rfl, rfl, rfl⟩
  | vbool b =>
    have hred : flattenComments d = .ok { d with comments := .vnone } := by
      unfold flattenComments
      rw [hc]
    rw [hred] at h
    injection h with h2
    rw [← h2]
    exact ⟨rfl, rfl, rfl⟩
  | vint n =>
    have hred : flattenComments d = .ok { d with comments := .vnone } := by
      unfold flattenComments
      rw [hc]
    rw [hred] at h
    injection h with h2
    rw [← h2]
    exact ⟨rfl, rfl, rfl⟩
  | vstr s =>
    have hred : flattenComments d = .ok { d with comments := .vnone } := by
      unfold flattenComments
      rw [hc]
    rw [hred] at h
    injection h with h2
    rw [← h2]
    exact ⟨rfl, rfl, rfl⟩
  | vdict entries =>
    have hred : flattenComments d = .ok { d with comments := .vnone } := by
      unfold flattenComments
      rw [hc]
    rw [hred] at h
    injection h with h2
    rw [← h2]
    exact ⟨rfl, rfl, rfl⟩

/-- Claim C7: when `before_validation` succeeds, the stored due date is
derived with precedence explicit due date, then completion date, then
assignment date; in particular when only `date_due` is supplied it is kept
unchanged, and the assignment date is never touched. -/
theorem assignment_due_date_precedence (d d2 : AssignmentPayload)
    (h : assignmentBeforeValidation d = .ok d2) :
    (d.date_due.isSome = true → d2.date_due = d.date_due)
      ∧ (d.date_due = none → d.date_completed.isSome = true →
          d2.date_due = d.date_completed)
      ∧ (d.date_due = none → d.date_completed = none →
          d2.date_due = d.date_assigned)
      ∧ d2.date_assigned = d.date_assigned := by
  unfold assignmentBeforeValidation at h
  have hflat := flattenComments_dates (deriveDueDate d) d2 h
  have hdd : (deriveDueDate d).date_assigned = d.date_assigned := rfl
  have hdue2 : (deriveDueDate d).date_due =
      (match d.date_due with
       | some v => some v
       | none =>
         match d.date_completed with
         | some c => some c
         | none => d.date_assigned) := rfl
  refine ⟨?_, ?_, ?_, ?_⟩
  · intro hsome
    rw [hflat.1, hdue2]
    cases hx : d.date_due with
    | none => rw [hx] at hsome; exact Bool.noConfusion hsome
    | some v => rfl
  · intro hdue hcomp
    rw [hflat.1, hdue2, hdue]
    cases hx : d.date_completed with
    | none => rw [hx] at hcomp; exact Bool.noConfusion hcomp
    | some c => rfl
  · intro hdue hcomp
    rw [hflat.1, hdue2, hdue, hcomp]
  · rw [hflat.2.1]
    exact hdd

/-- Claim C7 witness: a payload supplying only `date_due` keeps it and leaves
the assignment date unset. -/
theorem assignment_due_date_precedence_witness :
    (⟨none, some 5, none, PyVal.vnone⟩ : AssignmentPayload).date_due = some 5
      ∧ (⟨none, some 5, none, PyVal.vnone⟩ : AssignmentPayload).date_assigned = none := by
  have h := assignment_due_date_precedence
      (⟨none, some 5, none, PyVal.vnone⟩ : AssignmentPayload)
      (⟨none, some 5, none, PyVal.vnone⟩ : AssignmentPayload) rfl
  exact ⟨h.1 rfl, h.2.2.2⟩

/-! ## `pre_process` of review assignments -/

structure AssignmentMapped where
  decision : Option String
  date_complete : Option Int
deriving DecidableEq

def pyTruthyStrOpt : Option String → Bool
  | none => false
  | some s => !(s == "")

/-- `normalized_decision = data.get("decision").replace(" ", "_").lower()`
(ASCII lowering, as all decision vocabulary is ASCII). -/
def normalizeDecision (s : String) : String :=
  String.mk (s.toList.map (fun c => if c = ' ' then '_' else c.toLower))

/-- The serializer `Meta.decision_map`. -/
def decisionMap : List (String × String) :=
  [("accept", "accept"), ("pending_revisions", "minor_revisions"),
   ("resubmit_here", "major_revisions"), ("see_comments", "major_revisions"),
   ("resubmit_elsewhere", "reject"), ("decline", "reject"),
   ("cancelled", "withdrawn")]

def decisionMapGet (k : String) : Option String :=
  (decisionMap.find? (fun p => p.1 == k)).map Prod.snd

/-- First block of `pre_process`: `if data.get("date_complete") and not
data.get("decision"): data["decision"] = "withdrawn"`. -/
def deriveWithdrawn (d : AssignmentMapped) : AssignmentMapped :=
  if d.date_complete.isSome && !(pyTruthyStrOpt d.decision)
  then { d with decision := some "withdrawn" } else d

/-- Second block of `pre_process`: `if data.get("decision"):
data["decision"] = decision_map.get(normalized_decision) or
data.get("decision")`. -/
def mapDecision (d : AssignmentMapped) : AssignmentMapped :=
  { d with
    decision :=
      match d.decision with
      | some s =>
        if !(s == "") then
          match decisionMapGet (normalizeDecision s) with
          | some m => if !(m == "") then some m else some s
          | none => some s
        else some s
      | none => none }

def assignmentPreProcess (d : AssignmentMapped) : AssignmentMapped :=
  mapDecision (deriveWithdrawn d)

/-- Claim C6: a payload with a completion date and no (or blank) decision
gets the decision `"withdrawn"`, which the decision map leaves unchanged. -/
theorem assignment_withdrawn_decision (d : AssignmentMapped)
    (hc : d.date_complete.isSome = true)
    (hd : pyTruthyStrOpt d.decision = false) :
    (assignmentPreProcess d).decision = some "withdrawn" := by
  have h1 : deriveWithdrawn d = { d with decision := some "withdrawn" } := by
    unfold deriveWithdrawn
    rw [hc, hd]
    rfl
  unfold assignmentPreProcess
  rw [h1]
  rfl

/-- Claim C6 witness: a completed assignment with no supplied decision. -/
theorem assignment_withdrawn_decision_witness :
    (assignmentPreProcess ⟨none, some 3⟩).decision = some "withdrawn" :=
  assignment_withdrawn_decision ⟨none, some 3⟩ (by decide) (by decide)

/-! ## Reviewer rating (`post_process` rating branch and `get_quality`) -/

/-- Rating creation in `post_process`: `quality = self.initial_data.get("quality")`;
`if quality and review_assignment.editor: ReviewerRating.objects.create(...,
rating=(quality * 10))`.  Returns the rating value stored, if any. -/
def ratingStored (quality : Option Int) (hasEditor : Bool) : Option Int :=
  match quality with
  | some q => if (q != 0) && hasEditor then some (q * 10) else none
  | none => none

/-- `get_quality`: `(rating.rating * 10) if rating else None` — the
serializer own outbound conversion from the host 0–10 scale back to the
external 0–100 scale. -/
def get_quality (rating : Option Int) : Option Int :=
  match rating with
  | some r => some (r * 10)
  | none => none

/-- Claim C2: the code multiplies the external 0–100 quality by 10 instead of
converting it down to the host 0–10 scale.  For a supplied quality of 80 with
an editor present, the stored rating is 800 — not on the 0–10 scale and not
the converted value 8 — and the serializer own outbound `get_quality` then
reports 8000 instead of 80. -/
theorem rating_scale_bug :
    ratingStored (some 80) true = some 800
      ∧ ¬((800 : Int) ≤ 10)
      ∧ (80 : Int) / 10 = 8
      ∧ get_quality (ratingStored (some 80) true) = some 8000 := by decide

/-! ## Supplementary files (`post_process` supplementary-file branch)

The round review-file collection is a Django many-to-many set, modelled as
a duplicate-free association via an idempotent add. -/

def m2mAdd (files : List Nat) (pk : Nat) : List Nat :=
  if pk ∈ files then files else files ++ [pk]

/-- Supplementary-files branch of `post_process`:
`already_added = round.review_files.filter(pk__in=supplementary_file_ids)`,
`to_add = set(already_added_pks) - set(supplementary_file_ids)`, and each
file of `to_add` is added to the round review files.  A missing or empty id
list (the guard `if supplementary_file_ids and len(...)`) leaves the
collection alone. -/
def attachSuppFiles (review_files : List Nat) (supp_ids : List Nat) : List Nat :=
  if supp_ids.isEmpty then review_files
  else
    let already_added := review_files.filter (fun pk => supp_ids.contains pk)
    let to_add := already_added.filter (fun pk => !(supp_ids.contains pk))
    to_add.foldl m2mAdd review_files

/-- The reversed set difference makes `to_add` empty on every input, so the
supplementary-file attachment never changes the round collection. -/
theorem attach_supp_files_noop (review_files supp_ids : List Nat) :
    attachSuppFiles review_files supp_ids = review_files := by
  unfold attachSuppFiles
  by_cases he : supp_ids.isEmpty
  · rw [if_pos he]
  · rw [if_neg he]
    have hempty : (review_files.filter (fun pk => supp_ids.contains pk)).filter
        (fun pk => !(supp_ids.contains pk)) = [] := by
      rw [List.filter_eq_nil_iff]
      intro a ha
      have hmem : supp_ids.contains a = true := List.of_mem_filter ha
      intro hcontra
      have hcontra2 : (!(supp_ids.contains a)) = true := hcontra
      rw [hmem] at hcontra2
      exact Bool.noConfusion hcontra2
    simp only [hempty]
    rfl

/-- Claim C1: the claim fails at the concrete failing input — a round with no
associated review files and one supplied supplementary file id 5 ends with
the file still unassociated, on the first and on a repeated processing of the
identical payload. -/
theorem attach_supp_files_failing :
    attachSuppFiles [] [5] = []
      ∧ 5 ∉ attachSuppFiles [] [5]
      ∧ attachSuppFiles (attachSuppFiles [] [5]) [5] = [] := by decide

/-! ## Article date derivation (`derive_missing_dates` / `date_after`)

Datetimes are modelled as order-preserving integer codes. -/

/-- `Meta.fields = tuple(field_map.keys())` of the article serializer, in
declaration order. -/
def articleFields : List String :=
  ["source_record_key", "title", "abstract", "language", "date_started",
   "date_submitted", "date_accepted", "date_declined", "date_published",
   "date_updated", "status", "section_id", "owner_id", "cover_letter"]

structure ArticleDates where
  date_started : Option Int
  date_submitted : Option Int
  date_accepted : Option Int
  date_declined : Option Int
  date_published : Option Int
  date_updated : Option Int
deriving DecidableEq

/-- `data.get(...)` restricted to the date keys, the only keys the date
derivation ever reads. -/
def articleGet (d : ArticleDates) (k : String) : Option Int :=
  if k = "date_started" then d.date_started
  else if k = "date_submitted" then d.date_submitted
  else if k = "date_accepted" then d.date_accepted
  else if k = "date_declined" then d.date_declined
  else if k = "date_published" then d.date_published
  else if k = "date_updated" then d.date_updated
  else none

def dateCode (y m day : Nat) : Int := (y * 10000 + m * 100 + day : Nat)

/-- `Meta.default_timestamp = datetime(1900, 1, 1)`. -/
def default_timestamp : Int := dateCode 1900 1 1

/-- The loop of `date_after`: `found` starts false; on `field ==
date_attr_name` it is set (and the value check is reached); while unset other
fields are skipped; once set, every iteration evaluates
`value = data.get(date_attr_name)` — the queried key never advances — and
returns it if truthy. -/
def dateAfterLoop (get : String → Option Int) (name : String) :
    Bool → List String → Option Int
  | _, [] => none
  | found, f :: rest =>
    if f = name then
      match get name with
      | some v => some v
      | none => dateAfterLoop get name true rest
    else if found then
      match get name with
      | some v => some v
      | none => dateAfterLoop get name true rest
    else dateAfterLoop get name false rest

/-- `date_after`: the loop over `Meta.fields`, falling back to the default
timestamp. -/
def date_after (get : String → Option Int) (name : String) : Int :=
  match dateAfterLoop get name false articleFields with
  | some v => v
  | none => default_timestamp

def ordered_date_fields : List String :=
  ["date_submitted", "date_accepted", "date_declined", "date_updated"]

/-- The `date_started` block of `derive_missing_dates`: if `date_started` is
missing and some later date is populated, set it to
`date_after("date_started", data)`, else to the default timestamp. -/
def deriveDateStarted (d : ArticleDates) : Int :=
  match d.date_started with
  | some v => v
  | none =>
    let possible := ordered_date_fields.filterMap (articleGet d)
    if possible.length ≠ 0 then date_after (articleGet d) "date_started"
    else default_timestamp

/-- Whenever `date_started` is missing, `date_after` can only ever consult
`data.get("date_started")` itself, so the derived value is always the
1900-01-01 fallback, regardless of the populated later dates. -/
theorem deriveDateStarted_const (d : ArticleDates) (h : d.date_started = none) :
    deriveDateStarted d = default_timestamp := by
  have hget : articleGet d "date_started" = none := by
    unfold articleGet
    rw [if_pos rfl]
    exact h
  have hloop : ∀ fields : List String, ∀ b : Bool,
      dateAfterLoop (articleGet d) "date_started" b fields = none := by
    intro fields
    induction fields with
    | nil => intro b; rfl
    | cons f rest ih =>
      intro b
      unfold dateAfterLoop
      by_cases hf : f = "date_started"
      · rw [if_pos hf, hget]
        exact ih true
      · rw [if_neg hf]
        cases b with
        | true =>
          rw [if_pos rfl, hget]
          exact ih true
        | false =>
          rw [if_neg (by exact Bool.false_ne_true)]
          exact ih false
  unfold deriveDateStarted
  rw [h]
  show (if (ordered_date_fields.filterMap (articleGet d)).length ≠ 0
      then date_after (articleGet d) "date_started" else default_timestamp) = default_timestamp
  split
  · unfold date_after
    rw [hloop articleFields false]
  · rfl

/-- Claim C3: with `date_started` absent and `date_submitted` equal to
1850-01-01, the pipeline derives `date_started` as the 1900-01-01 fallback
(the loop `data.get(date_attr_name)` never advances to the populated later
date), which is chronologically later than the earliest populated later
date — the claim fails on the code. -/
theorem derive_date_started_failing :
    deriveDateStarted ⟨none, some (dateCode 1850 1 1), none, none, none, none⟩
        = default_timestamp
      ∧ ¬(deriveDateStarted ⟨none, some (dateCode 1850 1 1), none, none, none, none⟩
          ≤ dateCode 1850 1 1) := by decide

end JTImport
